import Mathlib

/-!
Shallow embedding of the `eventdispatcher` Go package
(`dispatcher.go`, `listener.go`, event/params file).

The dispatcher state is the Go struct `EventDispatcher`: a map from event
name to an ordered slice of listeners.  A Go map is embedded as a function
`String → Option (List Listener)` (absent key = `none`).  Listener values
are callables compared by function-pointer identity in `Off`
(`reflect.ValueOf(l).Pointer()`); each callable is embedded as a value
carrying a numeric identity `lid` standing for its pointer, together with
its behavior.  User-supplied callbacks are limited to the behaviors the
package's contract exercises: record an invocation (a counter increment,
embedded as appending the identity to a trace) and optionally stop
propagation of the event; the third constructor is the closure built by
`executeRemove` for `Once`, which runs the wrapped listener and then calls
`Off` on itself for a captured name.

Locks (`sync.RWMutex`) are erased: the embedding is the single-threaded
functional semantics.  Go slice aliasing is modelled explicitly in two
places.  First, inside `Off`: its loop
`append(listeners[:i], listeners[i+1:]...)` mutates the backing array that
the ranged slice `listeners` still views; `offLoop`/`shiftDown` reproduce
that in-place shift exactly (the element at the last index is left behind,
duplicated, and the map is set to a length `k-1` view after any match).
Second, across a whole dispatch: `dispatch`'s `range` captures the slice
header (base pointer and length) once but re-reads each element from the
shared backing array, which a `Once` wrapper's mid-dispatch `Off` on the
dispatched name shifts in place — `runGo` threads that array (`DispSt.arr`)
through the loop and `OffDuring` applies the shift to it, so a removal
during dispatch makes the loop skip the next entry and re-read the shifted
last one, exactly as the Go loop does.
-/

set_option maxRecDepth 4096

namespace EventDispatcherGo

/-- A registered callable.  `base id` and `stopper id` are user callbacks
(distinct closures have distinct `id`s, mirroring pointer identity);
`onceWrap id n inner` is the closure produced by `executeRemove d n inner`. -/
inductive Listener where
  | base (id : Nat)
  | stopper (id : Nat)
  | onceWrap (id : Nat) (n : String) (inner : Listener)
deriving DecidableEq

/-- Function-pointer identity of a listener, as compared by `Off`. -/
def Listener.lid : Listener → Nat
  | .base i => i
  | .stopper i => i
  | .onceWrap i _ _ => i

/-- The Go struct `EventDispatcher`: `listeners map[string]listenersCollection`. -/
structure EventDispatcher where
  listeners : String → Option (List Listener)

/-- Go `NewDispatcher()`: a dispatcher with an empty (freshly made) map. -/
def NewDispatcher : EventDispatcher := ⟨fun _ => none⟩

/-- Map store `d.listeners[n] = xs`. -/
def setL (d : EventDispatcher) (n : String) (xs : List Listener) : EventDispatcher :=
  ⟨fun m => if m = n then some xs else d.listeners m⟩

/-- Go `delete(d.listeners, n)`. -/
def delL (d : EventDispatcher) (n : String) : EventDispatcher :=
  ⟨fun m => if m = n then none else d.listeners m⟩

/-- Go map read `d.listeners[n]`: a missing key reads as the nil slice. -/
def getL (d : EventDispatcher) (n : String) : List Listener :=
  (d.listeners n).getD []

/-- Go `strings.Split(s, " ")` on the character list: split around every
single space character. -/
def splitCh : List Char → List Char → List (List Char)
  | [], acc => [acc.reverse]
  | c :: cs, acc =>
    if c = ' ' then acc.reverse :: splitCh cs [] else splitCh cs (c :: acc)

/-- Go `getNames(n)`: split `n` on the space character and drop empty tokens. -/
def getNames (n : String) : List String :=
  ((splitCh n.data []).map String.mk).filter (fun s => s != "")

/-- The unexported `on(d, n, l)`: append `l` to `d.listeners[n]`. -/
def onOne (d : EventDispatcher) (n : String) (l : Listener) : EventDispatcher :=
  setL d n (getL d n ++ [l])

/-- Go `On(names, l)`: register `l` under every token of `getNames names`. -/
def On (d : EventDispatcher) (names : String) (l : Listener) : EventDispatcher :=
  (getNames names).foldl (fun acc nm => onOne acc nm l) d

/-- Go `Once(names, l)`: for the i-th token `name`, build the `executeRemove`
closure (a fresh callable, identity `fresh + i`, removing itself from
`name`) and register it with `on(d, names, nl)` — the source passes the
whole input string `names` to `on`, not the token. -/
def Once (d : EventDispatcher) (names : String) (l : Listener) (fresh : Nat) :
    EventDispatcher :=
  (getNames names).enum.foldl
    (fun acc p => onOne acc names (.onceWrap (fresh + p.1) p.2 l)) d

/-- Effect of one `d.listeners[n] = append(listeners[:i], listeners[i+1:]...)`
on the shared backing array of length `A.length`: entries above `i` shift
down one place and the final entry stays in place. -/
def shiftDown (A : List Listener) (i : Nat) : List Listener :=
  match A.getLast? with
  | none => A
  | some w => A.take i ++ A.drop (i + 1) ++ [w]

/-- The loop of `Off` over indices `i, i+1, ...` (`fuel` iterations remain)
of the backing array `A`; returns the final array and whether any entry
matched the pointer `p`. -/
def offLoop (p : Nat) : Nat → Nat → List Listener → List Listener × Bool
  | 0, _, A => (A, false)
  | fuel + 1, i, A =>
    let hit := match A[i]? with
      | some l => l.lid == p
      | none => false
    let A2 := if hit then shiftDown A i else A
    let r := offLoop p fuel (i + 1) A2
    (r.1, hit || r.2)

/-- Go `Off(n, l)`: scan `d.listeners[n]` for entries whose pointer equals
`l`'s; on each match re-assign the map entry to the shifted array truncated
to length `k-1`.  If nothing matched the map is never written. -/
def Off (d : EventDispatcher) (n : String) (l : Listener) : EventDispatcher :=
  let s := getL d n
  let r := offLoop l.lid s.length 0 s
  if r.2 then setL d n (r.1.take (s.length - 1)) else d

/-- Go `OffAll(n)`: delete the key when present. -/
def OffAll (d : EventDispatcher) (n : String) : EventDispatcher :=
  if (d.listeners n).isSome then delL d n else d

/-- Go `HasListeners(n)`: key present with a non-empty slice. -/
def HasListeners (d : EventDispatcher) (n : String) : Bool :=
  match d.listeners n with
  | none => false
  | some xs => xs.length != 0

/-- The observable part of an `Event` during dispatch: its (immutable)
name and the propagation-stopped flag, mutated in place by listeners. -/
structure EvState where
  name : String
  stopped : Bool
deriving DecidableEq

/-- The state threaded through one `dispatch` call: the shared map, the
contents of the backing array of the ranged slice (Go's `range` captures
the slice header — base pointer and length — once, but each iteration
re-reads the element from that shared backing array, which a mid-dispatch
`Off` on the same name shifts in place), the shared event, and the trace
of performed side effects. -/
structure DispSt where
  d : EventDispatcher
  arr : List Listener
  ev : EvState
  tr : List Nat

/-- Go `Off(n, l)` called while a dispatch of name `dn` is iterating the
backing array `A`.  When `n = dn` the map's slice header points into `A`
(base `A`, current length `(getL d n).length`), so the loop scans
`A.take len` and its in-place shifts land in `A`: the entries past `len`
are untouched and the new array is `r.1 ++ A.drop len`; the map is
re-assigned the length-`len-1` view on a match, exactly as
`d.listeners[n] = append(listeners[:i], listeners[i+1:]...)` does.  When
`n ≠ dn` the entry is a separate allocation and this is the plain `Off`. -/
def OffDuring (dn : String) (d : EventDispatcher) (A : List Listener)
    (n : String) (l : Listener) : EventDispatcher × List Listener :=
  if n = dn then
    let len := (getL d n).length
    let r := offLoop l.lid len 0 (A.take len)
    (if r.2 then setL d n (r.1.take (len - 1)) else d, r.1 ++ A.drop len)
  else (Off d n l, A)

/-- Invoking one listener `l(e)` during a dispatch of name `dn`: a `base`
callback records its identity in the trace; a `stopper` records and calls
`e.StopPropagation()`; the `executeRemove` closure runs the wrapped
listener and then `d.Off(n, nl)` on itself (the `RUnlock`/`RLock` pair
around that call is erased), with the `Off` aliasing the dispatched
array when its name is the dispatched name. -/
def invokeGo (dn : String) : Listener → DispSt → DispSt
  | .base b, s => { s with tr := s.tr ++ [b] }
  | .stopper b, s => { s with ev := { s.ev with stopped := true }, tr := s.tr ++ [b] }
  | .onceWrap w nm inner, s =>
    let s1 := invokeGo dn inner s
    let p := OffDuring dn s1.d s1.arr nm (.onceWrap w nm inner)
    { s1 with d := p.1, arr := p.2 }

/-- The loop of `dispatch(d, e)`: `fuel` iterations remain, `i` is the
current index; the iteration count is fixed at entry (the captured slice
length) while each element is re-read from the current backing array. -/
def runGo (dn : String) : Nat → Nat → DispSt → DispSt
  | 0, _, s => s
  | fuel + 1, i, s =>
    match s.arr[i]? with
    | none => s
    | some l => runGo dn fuel (i + 1) (invokeGo dn l s)

/-- Go `Dispatch(e)`: read the slice registered under `e.Name()`, run the
range loop over its backing array, and return the event; the threaded
`EvState`/trace are the observable effects on the shared event and on
listener-captured state. -/
def Dispatch (d : EventDispatcher) (e : EvState) (tr : List Nat) :
    EventDispatcher × EvState × List Nat :=
  let A := getL d e.name
  let s := runGo e.name A.length 0 ⟨d, A, e, tr⟩
  (s.d, s.ev, s.tr)

/-- Listeners that never mutate the listener mapping when invoked. -/
def persistent : Listener → Bool
  | .base _ => true
  | .stopper _ => true
  | .onceWrap _ _ _ => false

/-- Cumulative effect of one invocation on the map and the dispatched
array. -/
def dArrEff (dn : String) : Listener → EventDispatcher × List Listener →
    EventDispatcher × List Listener
  | .base _, p => p
  | .stopper _, p => p
  | .onceWrap w nm inner, p =>
    OffDuring dn (dArrEff dn inner p).1 (dArrEff dn inner p).2 nm
      (.onceWrap w nm inner)

/-- Cumulative effect of one listener invocation on the event. -/
def eEff : Listener → EvState → EvState
  | .base _, e => e
  | .stopper _, e => { e with stopped := true }
  | .onceWrap _ _ inner, e => eEff inner e

/-- Identities recorded (side effects performed) by one invocation. -/
def effTrace : Listener → List Nat
  | .base b => [b]
  | .stopper b => [b]
  | .onceWrap _ _ inner => effTrace inner

/-- Identities recorded by invoking a sequence of listeners in order. -/
def traceOf : List Listener → List Nat
  | [] => []
  | l :: ls => effTrace l ++ traceOf ls

/-- Event state after invoking a sequence of listeners in order. -/
def eFold (ls : List Listener) (e : EvState) : EvState :=
  ls.foldl (fun a l => eEff l a) e

/-- Go `DefaultDispatcherKey` constant. -/
def DefaultDispatcherKey : String := "event_dispatcher"

/-- The process-wide registry `var dispatchers map[string]*EventDispatcher`,
with pointer values embedded as allocation indices into `heap` and a
fresh-allocation counter. -/
structure Registry where
  table : String → Option Nat
  heap : Nat → EventDispatcher
  nextId : Nat

/-- Go `GetDispatcher`'s key defaulting: a `nil` argument means the default key. -/
def keyFor : Option String → String
  | none => DefaultDispatcherKey
  | some s => s

/-- Go `GetDispatcher(k)` / `getDispatcher(key)`: return the stored instance,
allocating and storing `NewDispatcher()` on first access (the `nil`-map
initialization of `dispatchers` is the empty initial `Registry`). -/
def GetDispatcher (r : Registry) (k : Option String) : Registry × Nat :=
  let key := keyFor k
  match r.table key with
  | some i => (r, i)
  | none =>
    (⟨fun m => if m = key then some r.nextId else r.table m,
      fun j => if j = r.nextId then NewDispatcher else r.heap j,
      r.nextId + 1⟩, r.nextId)

/-- The registry before any `GetDispatcher` call. -/
def initRegistry : Registry := ⟨fun _ => none, fun _ => NewDispatcher, 0⟩

/-- Registry states reachable from `initRegistry`: every stored index was
allocated (below the counter) and distinct keys hold distinct allocations. -/
def RegWF (r : Registry) : Prop :=
  (∀ s j, r.table s = some j → j < r.nextId) ∧
  (∀ s t js jt, r.table s = some js → r.table t = some jt → s ≠ t → js ≠ jt)

/-- Values storable in a `ParamsEvent`'s `map[string]interface{}`; the
`GetParam` not-found placeholder is the empty string `GoVal.str ""`. -/
inductive GoVal where
  | str (s : String)
  | vint (n : Int)
deriving DecidableEq

/-- The default `Event` implementation `ParamsEvent`. -/
structure ParamsEvent where
  name : String
  isPropagationStopped : Bool
  params : String → Option GoVal

/-- Go `Name()`. -/
def ParamsEvent.PName (e : ParamsEvent) : String := e.name

/-- Go `IsPropagationStopped()`. -/
def ParamsEvent.IsPropagationStopped (e : ParamsEvent) : Bool :=
  e.isPropagationStopped

/-- Go `StopPropagation()`. -/
def ParamsEvent.StopPropagation (e : ParamsEvent) : ParamsEvent :=
  { e with isPropagationStopped := true }

/-- Go `SetParam(k, v)`; the Go method returns the receiver pointer for
chaining, embedded as returning the updated event. -/
def ParamsEvent.SetParam (e : ParamsEvent) (k : String) (v : GoVal) : ParamsEvent :=
  { e with params := fun m => if m = k then some v else e.params m }

/-- Go `HasParam(k)`. -/
def ParamsEvent.HasParam (e : ParamsEvent) (k : String) : Bool :=
  (e.params k).isSome

/-- Go `RemoveParam(k)`: delete when present, otherwise do nothing; returns
the receiver for chaining. -/
def ParamsEvent.RemoveParam (e : ParamsEvent) (k : String) : ParamsEvent :=
  if e.HasParam k then { e with params := fun m => if m = k then none else e.params m }
  else e

/-- Go `GetParam(k)`: the value and a found flag; `("", false)` when absent. -/
def ParamsEvent.GetParam (e : ParamsEvent) (k : String) : GoVal × Bool :=
  match e.params k with
  | none => (GoVal.str "", false)
  | some v => (v, true)

/-- Go `NewParamsEvent(n)`: fresh event, propagation not stopped, empty params. -/
def NewParamsEvent (n : String) : ParamsEvent := ⟨n, false, fun _ => none⟩

/-- One call against the `ParamsEvent` mutator API. -/
inductive PEOp where
  | setP (k : String) (v : GoVal)
  | removeP (k : String)
  | stopProp

/-- Apply one API call. -/
def applyOp (e : ParamsEvent) : PEOp → ParamsEvent
  | .setP k v => e.SetParam k v
  | .removeP k => e.RemoveParam k
  | .stopProp => e.StopPropagation

/-- Apply a sequence of API calls. -/
def applyOps (e : ParamsEvent) (ops : List PEOp) : ParamsEvent :=
  ops.foldl applyOp e

/-- Occurrences of a token in a token list (how many times a name appears
among the split names of an `On` call). -/
def countTok (m : String) : List String → Nat
  | [] => 0
  | t :: ts => (if t = m then 1 else 0) + countTok m ts

theorem listeners_setL_same (d : EventDispatcher) (n : String) (xs : List Listener) :
    (setL d n xs).listeners n = some xs := by
  simp [setL]

theorem listeners_setL_ne (d : EventDispatcher) (xs : List Listener) {m n : String}
    (h : m ≠ n) : (setL d n xs).listeners m = d.listeners m := by
  simp [setL, h]

theorem getL_setL_same (d : EventDispatcher) (n : String) (xs : List Listener) :
    getL (setL d n xs) n = xs := by
  simp [getL, listeners_setL_same]

theorem getL_eq_of_listeners {d : EventDispatcher} {n : String} {xs : List Listener}
    (h : d.listeners n = some xs) : getL d n = xs := by
  simp [getL, h]

/-- One unfolding step of the dispatch loop. -/
theorem runGo_succ (dn : String) (fuel i : Nat) (s : DispSt) :
    runGo dn (fuel + 1) i s =
      (match s.arr[i]? with
       | none => s
       | some l => runGo dn fuel (i + 1) (invokeGo dn l s)) := rfl

theorem runGo_step_some (dn : String) (fuel i : Nat) (s : DispSt) (l : Listener)
    (h : s.arr[i]? = some l) :
    runGo dn (fuel + 1) i s = runGo dn fuel (i + 1) (invokeGo dn l s) := by
  rw [runGo_succ, h]

theorem runGo_step_none (dn : String) (fuel i : Nat) (s : DispSt)
    (h : s.arr[i]? = none) :
    runGo dn (fuel + 1) i s = s := by
  rw [runGo_succ, h]

theorem invokeGo_components (dn : String) (l : Listener) :
    ∀ (d : EventDispatcher) (A : List Listener) (e : EvState) (tr : List Nat),
    invokeGo dn l ⟨d, A, e, tr⟩ =
      ⟨(dArrEff dn l (d, A)).1, (dArrEff dn l (d, A)).2, eEff l e, tr ++ effTrace l⟩ := by
  induction l with
  | base b => intro d A e tr; rfl
  | stopper b => intro d A e tr; rfl
  | onceWrap w nm inner ih =>
    intro d A e tr
    simp [invokeGo, dArrEff, eEff, effTrace, ih]

theorem eEff_name (l : Listener) : ∀ e : EvState, (eEff l e).name = e.name := by
  induction l with
  | base b => intro e; rfl
  | stopper b => intro e; rfl
  | onceWrap w nm inner ih => intro e; simp [eEff, ih]

theorem eFold_name (ls : List Listener) : ∀ e : EvState, (eFold ls e).name = e.name := by
  induction ls with
  | nil => intro e; rfl
  | cons l ls ih => intro e; simp [eFold, List.foldl_cons] at ih ⊢; rw [ih, eEff_name]

theorem eEff_base_map (ids : List Nat) : ∀ e : EvState, eFold (ids.map Listener.base) e = e := by
  induction ids with
  | nil => intro e; rfl
  | cons i ids ih => intro e; simp [eFold, List.foldl_cons, eEff] at ih ⊢; exact ih e

theorem traceOf_base_map (ids : List Nat) : traceOf (ids.map Listener.base) = ids := by
  induction ids with
  | nil => rfl
  | cons i ids ih => simp [traceOf, effTrace, ih]

/-- When every remaining listener in the array is persistent, the loop
reads them in order without any array or map mutation. -/
theorem runGo_persistent (dn : String) : ∀ (fuel i : Nat) (d : EventDispatcher)
    (A : List Listener) (e : EvState) (tr : List Nat),
    (∀ l ∈ A.drop i, persistent l = true) →
    runGo dn fuel i ⟨d, A, e, tr⟩ =
      ⟨d, A, eFold ((A.drop i).take fuel) e, tr ++ traceOf ((A.drop i).take fuel)⟩ := by
  intro fuel
  induction fuel with
  | zero =>
    intro i d A e tr _
    simp [runGo, eFold, traceOf]
  | succ f ih =>
    intro i d A e tr h
    cases hAi : (⟨d, A, e, tr⟩ : DispSt).arr[i]? with
    | none =>
      have hge : A.length ≤ i := by
        by_contra hlt
        rw [List.getElem?_eq_getElem (Nat.lt_of_not_le hlt)] at hAi
        exact Option.noConfusion hAi
      have hdrop : A.drop i = [] := List.drop_eq_nil_of_le hge
      rw [runGo_step_none dn f i _ hAi]
      simp [hdrop, eFold, traceOf]
    | some l =>
      have hlt : i < A.length := by
        by_contra hge
        rw [List.getElem?_eq_none (Nat.le_of_not_lt hge)] at hAi
        exact Option.noConfusion hAi
      have hget : A[i] = l := by
        have hx := List.getElem?_eq_getElem hlt
        rw [hAi] at hx
        exact (Option.some.inj hx).symm
      have hcons : A.drop i = l :: A.drop (i + 1) := by
        rw [List.drop_eq_getElem_cons hlt, hget]
      have hmem : l ∈ A.drop i := by
        rw [hcons]
        exact List.mem_cons_self _ _
      have hnext : ∀ x ∈ A.drop (i + 1), persistent x = true := by
        intro x hx
        apply h
        rw [hcons]
        exact List.mem_cons_of_mem _ hx
      have htake : (A.drop i).take (f + 1) = l :: (A.drop (i + 1)).take f := by
        rw [hcons, List.take_succ_cons]
      rw [runGo_step_some dn f i _ l hAi]
      cases l with
      | base b =>
        have hinv : invokeGo dn (.base b) ⟨d, A, e, tr⟩ = ⟨d, A, e, tr ++ [b]⟩ := rfl
        rw [hinv, ih (i + 1) d A e (tr ++ [b]) hnext, htake]
        simp [eFold, traceOf, effTrace, List.foldl_cons, eEff, List.append_assoc]
      | stopper b =>
        have hinv : invokeGo dn (.stopper b) ⟨d, A, e, tr⟩
            = ⟨d, A, { e with stopped := true }, tr ++ [b]⟩ := rfl
        rw [hinv, ih (i + 1) d A { e with stopped := true } (tr ++ [b]) hnext, htake]
        simp [eFold, traceOf, effTrace, List.foldl_cons, eEff, List.append_assoc]
      | onceWrap w nm inner =>
        exfalso
        have hp := h _ hmem
        simp [persistent] at hp

/-- The dispatch loop never reads the event: the map, array and trace it
produces are the same for any two event states. -/
theorem runGo_ev_indep (dn : String) : ∀ (fuel i : Nat) (d : EventDispatcher)
    (A : List Listener) (tr : List Nat) (e1 e2 : EvState),
    (runGo dn fuel i ⟨d, A, e1, tr⟩).d = (runGo dn fuel i ⟨d, A, e2, tr⟩).d
    ∧ (runGo dn fuel i ⟨d, A, e1, tr⟩).arr = (runGo dn fuel i ⟨d, A, e2, tr⟩).arr
    ∧ (runGo dn fuel i ⟨d, A, e1, tr⟩).tr = (runGo dn fuel i ⟨d, A, e2, tr⟩).tr := by
  intro fuel
  induction fuel with
  | zero =>
    intro i d A tr e1 e2
    exact ⟨rfl, rfl, rfl⟩
  | succ f ih =>
    intro i d A tr e1 e2
    cases hAi : (⟨d, A, e1, tr⟩ : DispSt).arr[i]? with
    | none =>
      have hAi2 : (⟨d, A, e2, tr⟩ : DispSt).arr[i]? = none := hAi
      rw [runGo_step_none dn f i _ hAi, runGo_step_none dn f i _ hAi2]
      exact ⟨rfl, rfl, rfl⟩
    | some l =>
      have hAi2 : (⟨d, A, e2, tr⟩ : DispSt).arr[i]? = some l := hAi
      rw [runGo_step_some dn f i _ l hAi, runGo_step_some dn f i _ l hAi2]
      rw [invokeGo_components, invokeGo_components]
      exact ih (i + 1) (dArrEff dn l (d, A)).1 (dArrEff dn l (d, A)).2
        (tr ++ effTrace l) (eEff l e1) (eEff l e2)

/-- The dispatch loop never changes the event's name. -/
theorem runGo_name (dn : String) : ∀ (fuel i : Nat) (s : DispSt),
    (runGo dn fuel i s).ev.name = s.ev.name := by
  intro fuel
  induction fuel with
  | zero => intro i s; rfl
  | succ f ih =>
    intro i s
    cases hAi : s.arr[i]? with
    | none => rw [runGo_step_none dn f i s hAi]
    | some l =>
      rw [runGo_step_some dn f i s l hAi]
      obtain ⟨d, A, e, tr⟩ := s
      rw [invokeGo_components, ih]
      exact eEff_name l e

/-- A dispatch that finds no listeners returns everything unchanged. -/
theorem dispatch_empty (d : EventDispatcher) (e : EvState) (tr : List Nat)
    (h : getL d e.name = []) : Dispatch d e tr = (d, e, tr) := by
  simp [Dispatch, h, runGo]

/-- Running `Off` on a one-element sequence whose entry matches: the entry is
removed, leaving the key present with an empty slice. -/
theorem Off_only_registrant {d : EventDispatcher} {n : String} {x : Listener}
    (l : Listener) (h : d.listeners n = some [x]) (hp : x.lid = l.lid) :
    Off d n l = setL d n [] := by
  simp only [Off, getL_eq_of_listeners h]
  simp [offLoop, shiftDown, hp]

theorem mem_of_getLast?_eq {A : List Listener} {w : Listener}
    (h : A.getLast? = some w) : w ∈ A := by
  have hw : w ∈ A.getLast? := Option.mem_def.mpr h
  obtain ⟨hne, heq⟩ := List.mem_getLast?_eq_getLast hw
  subst heq
  exact List.getLast_mem hne

/-- One unfolding step of the `Off` scan loop. -/
theorem offLoop_succ (p fuel i : Nat) (A : List Listener) :
    offLoop p (fuel + 1) i A =
      ((offLoop p fuel (i + 1)
          (if (match A[i]? with | some l => l.lid == p | none => false) = true
           then shiftDown A i else A)).1,
       (match A[i]? with | some l => l.lid == p | none => false) ||
       (offLoop p fuel (i + 1)
          (if (match A[i]? with | some l => l.lid == p | none => false) = true
           then shiftDown A i else A)).2) := rfl

theorem offLoop_no_hit (p : Nat) : ∀ (fuel i : Nat) (A : List Listener),
    (∀ l ∈ A.drop i, (l.lid == p) = false) → offLoop p fuel i A = (A, false) := by
  intro fuel
  induction fuel with
  | zero => intro i A _; rfl
  | succ f ih =>
    intro i A h
    have hhit : (match A[i]? with | some l => l.lid == p | none => false) = false := by
      cases hAi : A[i]? with
      | none => rfl
      | some a =>
        have hlt : i < A.length := by
          by_contra hge
          rw [List.getElem?_eq_none (Nat.le_of_not_lt hge)] at hAi
          exact Option.noConfusion hAi
        have hget : A[i] = a := by
          have := List.getElem?_eq_getElem hlt
          rw [hAi] at this
          exact (Option.some.inj this).symm
        have hmem : a ∈ A.drop i := by
          rw [List.drop_eq_getElem_cons hlt, hget]
          exact List.mem_cons_self _ _
        exact h a hmem
    have hsub : ∀ l ∈ A.drop (i + 1), (l.lid == p) = false := by
      intro l hl
      apply h
      have hdd : A.drop (i + 1) = (A.drop i).drop 1 := by
        rw [List.drop_drop]
      rw [hdd] at hl
      exact List.drop_subset 1 (A.drop i) hl
    rw [offLoop_succ, hhit, if_neg Bool.false_ne_true, ih (i + 1) A hsub]
    simp

theorem offLoop_skip (p : Nat) : ∀ (m fuel i : Nat) (A : List Listener),
    (∀ l ∈ (A.drop i).take m, (l.lid == p) = false) →
    offLoop p (m + fuel) i A = offLoop p fuel (i + m) A := by
  intro m
  induction m with
  | zero => intro fuel i A _; simp
  | succ m ih =>
    intro fuel i A h
    have hstep : m + 1 + fuel = (m + fuel) + 1 := by omega
    rw [hstep]
    have hhit : (match A[i]? with | some l => l.lid == p | none => false) = false := by
      cases hAi : A[i]? with
      | none => rfl
      | some a =>
        have hlt : i < A.length := by
          by_contra hge
          rw [List.getElem?_eq_none (Nat.le_of_not_lt hge)] at hAi
          exact Option.noConfusion hAi
        have hget : A[i] = a := by
          have := List.getElem?_eq_getElem hlt
          rw [hAi] at this
          exact (Option.some.inj this).symm
        have hmem : a ∈ (A.drop i).take (m + 1) := by
          rw [List.drop_eq_getElem_cons hlt, hget, List.take_succ_cons]
          exact List.mem_cons_self _ _
        exact h a hmem
    have hnext : ∀ l ∈ (A.drop (i + 1)).take m, (l.lid == p) = false := by
      intro l hl
      apply h
      by_cases hlt : i < A.length
      · rw [List.drop_eq_getElem_cons hlt, List.take_succ_cons]
        exact List.mem_cons_of_mem _ hl
      · rw [List.drop_eq_nil_of_le (by omega : A.length ≤ i + 1)] at hl
        simp at hl
    rw [offLoop_succ, hhit, if_neg Bool.false_ne_true, ih fuel (i + 1) A hnext]
    have harith : i + (m + 1) = i + 1 + m := by omega
    rw [harith]
    simp

/-- Running `Off` when exactly one entry of `n`'s sequence matches the pointer:
that entry is removed and the order of the others is preserved. -/
theorem Off_unique_match {d : EventDispatcher} {n : String} {x : Listener}
    (l : Listener) (ys zs : List Listener)
    (h : d.listeners n = some (ys ++ x :: zs))
    (hx : x.lid = l.lid)
    (hy : ∀ y ∈ ys, y.lid ≠ l.lid)
    (hz : ∀ z ∈ zs, z.lid ≠ l.lid) :
    Off d n l = setL d n (ys ++ zs) := by
  have hs : getL d n = ys ++ x :: zs := getL_eq_of_listeners h
  have hlen : (ys ++ x :: zs).length = ys.length + (zs.length + 1) := by
    simp
  simp only [Off, hs, hlen]
  have hskip : offLoop l.lid (ys.length + (zs.length + 1)) 0 (ys ++ x :: zs)
      = offLoop l.lid (zs.length + 1) ys.length (ys ++ x :: zs) := by
    have hcond : ∀ a ∈ ((ys ++ x :: zs).drop 0).take ys.length, (a.lid == l.lid) = false := by
      intro a ha
      rw [List.drop_zero, List.take_left] at ha
      exact beq_eq_false_iff_ne.mpr (hy a ha)
    rw [offLoop_skip l.lid ys.length (zs.length + 1) 0 (ys ++ x :: zs) hcond,
      Nat.zero_add]
  rw [hskip]
  have hhit : (match (ys ++ x :: zs)[ys.length]? with
      | some a => a.lid == l.lid | none => false) = true := by
    rw [List.getElem?_append_right (Nat.le_refl ys.length), Nat.sub_self]
    simp [hx]
  cases zs with
  | nil =>
    have hdrop : (ys ++ [x]).drop (ys.length + 1) = [] := by
      have hda := @List.drop_append _ ys [x] 1
      simpa using hda
    have hshift : shiftDown (ys ++ [x]) ys.length = ys ++ [x] := by
      have hstep : shiftDown (ys ++ [x]) ys.length
          = (ys ++ [x]).take ys.length ++ (ys ++ [x]).drop (ys.length + 1) ++ [x] := by
        rw [shiftDown, List.getLast?_concat]
      rw [hstep, List.take_left, hdrop]
      simp
    have hrest : offLoop l.lid (List.length ([] : List Listener)) (ys.length + 1)
        (ys ++ [x]) = (ys ++ [x], false) := rfl
    rw [offLoop_succ, hhit, if_pos rfl, hshift, hrest]
    simp [List.take_left]
  | cons c zs' =>
    have hne : (c :: zs') ≠ [] := List.cons_ne_nil _ _
    have hlast : (ys ++ x :: c :: zs').getLast? = (c :: zs').getLast? := by
      rw [List.getLast?_append_of_ne_nil _ (List.cons_ne_nil _ _),
        List.getLast?_cons_cons]
    obtain ⟨w, hw⟩ : ∃ w, (c :: zs').getLast? = some w :=
      ⟨(c :: zs').getLast hne, List.getLast?_eq_getLast_of_ne_nil hne⟩
    have hwmem : w ∈ c :: zs' := mem_of_getLast?_eq hw
    have hdrop : (ys ++ x :: c :: zs').drop (ys.length + 1) = c :: zs' := by
      have hda := @List.drop_append _ ys (x :: c :: zs') 1
      simpa using hda
    have hshift : shiftDown (ys ++ x :: c :: zs') ys.length
        = ys ++ (c :: zs' ++ [w]) := by
      have hstep : shiftDown (ys ++ x :: c :: zs') ys.length
          = (ys ++ x :: c :: zs').take ys.length
            ++ (ys ++ x :: c :: zs').drop (ys.length + 1) ++ [w] := by
        rw [shiftDown, hlast, hw]
      rw [hstep, List.take_left, hdrop, List.append_assoc]
    have hrest : offLoop l.lid (List.length (c :: zs')) (ys.length + 1)
        (ys ++ (c :: zs' ++ [w])) = (ys ++ (c :: zs' ++ [w]), false) := by
      apply offLoop_no_hit
      intro a ha
      have hdrop : (ys ++ (c :: zs' ++ [w])).drop (ys.length + 1) = zs' ++ [w] := by
        have := @List.drop_append _ ys (c :: zs' ++ [w]) 1
        simpa using this
      rw [hdrop] at ha
      rcases List.mem_append.mp ha with hmem | hmem
      · exact beq_eq_false_iff_ne.mpr (hz a (List.mem_cons_of_mem _ hmem))
      · have haw : a = w := by simpa using hmem
        subst haw
        exact beq_eq_false_iff_ne.mpr (hz a hwmem)
    rw [offLoop_succ, hhit, if_pos rfl, hshift, hrest]
    have htake2 : List.take (ys.length + (zs'.length + 1)) (ys ++ c :: (zs' ++ [w]))
        = ys ++ c :: zs' := by
      have hform2 : ys ++ c :: (zs' ++ [w]) = (ys ++ c :: zs') ++ [w] := by
        simp
      have hlen3 : ys.length + (zs'.length + 1) = (ys ++ c :: zs').length := by
        simp
      rw [hform2, hlen3, List.take_left]
    simp [htake2]

theorem onFold_other (l : Listener) (ts : List String) :
    ∀ (d : EventDispatcher) (m : String), m ∉ ts →
      ((ts.foldl (fun acc t => onOne acc t l) d).listeners m) = d.listeners m := by
  induction ts with
  | nil => intro d m _; rfl
  | cons t ts ih =>
    intro d m hm
    rw [List.foldl_cons]
    rw [ih _ _ (fun hmem => hm (List.mem_cons_of_mem _ hmem))]
    exact listeners_setL_ne _ _ (fun he => hm (he ▸ List.mem_cons_self _ _))

theorem onFold_count (l : Listener) (ts : List String) :
    ∀ (d : EventDispatcher) (m : String),
      ((ts.foldl (fun acc t => onOne acc t l) d).listeners m) =
        (if countTok m ts ≠ 0
         then some (getL d m ++ List.replicate (countTok m ts) l)
         else d.listeners m) := by
  induction ts with
  | nil => intro d m; simp [countTok]
  | cons t ts ih =>
    intro d m
    rw [List.foldl_cons, ih]
    by_cases hm : t = m
    · subst hm
      simp only [countTok, if_pos rfl]
      have hget : getL (onOne d t l) t = getL d t ++ [l] := by
        simp [onOne, getL_setL_same]
      cases hc : countTok t ts with
      | zero =>
        simp only [hc, if_neg (by omega : ¬ (0 : Nat) ≠ 0)]
        simp [onOne, listeners_setL_same, List.replicate_one]
      | succ c =>
        rw [if_pos (by omega), if_pos (by omega), hget]
        rw [List.append_assoc, List.singleton_append]
        have hrep : l :: List.replicate (c + 1) l = List.replicate (1 + (c + 1)) l := by
          rw [← List.replicate_succ]
          congr 1
          omega
        rw [hrep]
        simp
    · have hne : m ≠ t := fun he => hm he.symm
      have hcnt : countTok m (t :: ts) = countTok m ts := by
        simp [countTok, fun he => hm he]
      rw [hcnt]
      have hlist : (onOne d t l).listeners m = d.listeners m := by
        simp [onOne, listeners_setL_ne _ _ hne]
      have hgl : getL (onOne d t l) m = getL d m := by
        simp [getL, hlist]
      rw [hlist, hgl]

/-- Running the matching scan of `Off` over a one-element array. -/
theorem offLoop_single_match {x : Listener} (p : Nat) (hp : x.lid = p) :
    offLoop p ([x].length) 0 [x] = ([x], true) := by
  show offLoop p (0 + 1) 0 [x] = ([x], true)
  rw [offLoop_succ]
  simp [offLoop, shiftDown, hp]

/-- Running `Off` mid-dispatch on the dispatched name when the wrapper is
the only registrant: the key keeps an empty view and the backing array is
unchanged. -/
theorem OffDuring_only_registrant {d : EventDispatcher} {n : String} {x : Listener}
    (l : Listener) (h : d.listeners n = some [x]) (hp : x.lid = l.lid) :
    OffDuring n d [x] n l = (setL d n [], [x]) := by
  have hg : getL d n = [x] := getL_eq_of_listeners h
  simp only [OffDuring, if_pos rfl, hg]
  simp [offLoop, shiftDown, hp]

/-- Dispatcher holding the same listener value registered twice under one
name, the state reached by calling `On` twice with one listener variable. -/
def dupState : EventDispatcher :=
  setL NewDispatcher "test_event" [.base 7, .base 7]

/-- C2: counterexample evaluation.  With the same listener (pointer `7`)
registered twice under `"test_event"`, `Off` leaves one matching entry in
the sequence (the in-place `append(listeners[:i], listeners[i+1:]...)`
shifts over the slice the loop is still ranging over), so the sequence
still contains an entry with the listener's identity and `HasListeners`
stays true — the claim says all matching entries are removed. -/
theorem off_duplicate_registration_leaves_one :
    (Off dupState "test_event" (.base 7)).listeners "test_event" = some [.base 7]
    ∧ HasListeners (Off dupState "test_event" (.base 7)) "test_event" = true := by
  decide

/-- The state after `Once("test_event", l0); On("test_event", l1);
On("test_event", l2)`: an `executeRemove` wrapper followed by two
persistent listeners. -/
def mixedState : EventDispatcher :=
  setL NewDispatcher "test_event"
    [.onceWrap 5 "test_event" (.base 0), .base 1, .base 2]

/-- C3 counterexample: at the reachable state wrapper-then-two-listeners,
the wrapper's mid-dispatch `Off` shifts the backing array the range loop
is reading, so the dispatch records `[0, 2, 2]` — listener `1` is skipped
and listener `2` runs twice — not `[0, 1, 2]` as invoking each registered
listener exactly once in registration order would give. -/
theorem dispatch_live_array_counterexample :
    (Dispatch mixedState ⟨"test_event", false⟩ []).2.2 = [0, 2, 2]
    ∧ (Dispatch mixedState ⟨"test_event", false⟩ []).2.2 ≠ [0, 1, 2] := by
  decide

/-- C3 (amended: the exactly-once-in-order guarantee holds when no invoked
listener removes entries from the dispatched name's sequence
mid-dispatch, in particular when all its registered listeners are
persistent): `Dispatch` looks up the event's name, threads the one shared
event through the invoked listeners and returns it (its name never
changes); with no listeners it is a no-op returning the event unchanged;
when every registered listener for the name is persistent each is invoked
exactly once, in registration order, leaving the mapping untouched, and
with `k` counting listeners the shared counter reaches `k`. -/
theorem dispatch_order_and_return (d : EventDispatcher) (e : EvState) (tr : List Nat) :
    (Dispatch d e tr).2.1.name = e.name
    ∧ (getL d e.name = [] → Dispatch d e tr = (d, e, tr))
    ∧ ((∀ l ∈ getL d e.name, persistent l = true) →
        (Dispatch d e tr).1 = d
        ∧ (Dispatch d e tr).2.1 = eFold (getL d e.name) e
        ∧ (Dispatch d e tr).2.2 = tr ++ traceOf (getL d e.name))
    ∧ (∀ ids : List Nat, getL d e.name = ids.map Listener.base →
        (Dispatch d e tr).2.2 = tr ++ ids
        ∧ (Dispatch d e tr).2.2.length = tr.length + ids.length
        ∧ (Dispatch d e tr).2.1 = e
        ∧ (Dispatch d e tr).1 = d) := by
  have hpers : (∀ l ∈ getL d e.name, persistent l = true) →
      (Dispatch d e tr).1 = d
      ∧ (Dispatch d e tr).2.1 = eFold (getL d e.name) e
      ∧ (Dispatch d e tr).2.2 = tr ++ traceOf (getL d e.name) := by
    intro hp
    have hp0 : ∀ l ∈ (getL d e.name).drop 0, persistent l = true := by
      simpa using hp
    have key := runGo_persistent e.name (getL d e.name).length 0 d (getL d e.name)
      e tr hp0
    have hsimp : ((getL d e.name).drop 0).take (getL d e.name).length
        = getL d e.name := by
      simp
    rw [hsimp] at key
    refine ⟨?_, ?_, ?_⟩
    · show (runGo e.name (getL d e.name).length 0 ⟨d, getL d e.name, e, tr⟩).d = d
      rw [key]
    · show (runGo e.name (getL d e.name).length 0 ⟨d, getL d e.name, e, tr⟩).ev
        = eFold (getL d e.name) e
      rw [key]
    · show (runGo e.name (getL d e.name).length 0 ⟨d, getL d e.name, e, tr⟩).tr
        = tr ++ traceOf (getL d e.name)
      rw [key]
  refine ⟨?_, ?_, hpers, ?_⟩
  · exact runGo_name e.name (getL d e.name).length 0 ⟨d, getL d e.name, e, tr⟩
  · intro h
    exact dispatch_empty d e tr h
  · intro ids h
    have hper : ∀ l ∈ getL d e.name, persistent l = true := by
      rw [h]
      intro l hl
      obtain ⟨j, _, rfl⟩ := List.mem_map.mp hl
      rfl
    obtain ⟨h1, h2, h3⟩ := hpers hper
    rw [h, traceOf_base_map] at h3
    rw [h, eEff_base_map] at h2
    refine ⟨h3, ?_, h2, h1⟩
    rw [h3]
    simp

/-- Dispatcher with five persistent listeners on one name. -/
def fanoutState : EventDispatcher :=
  setL NewDispatcher "test_event" [.base 0, .base 1, .base 2, .base 3, .base 4]

/-- C3 witness: the dispatch-order theorem applied at a concrete dispatcher
with five counting listeners and at an empty dispatcher. -/
theorem dispatch_order_and_return_witness :
    (∀ l ∈ getL fanoutState "test_event", persistent l = true)
    ∧ (Dispatch fanoutState ⟨"test_event", false⟩ []).2.2
        = [] ++ traceOf (getL fanoutState "test_event")
    ∧ getL fanoutState "test_event" = ([0, 1, 2, 3, 4] : List Nat).map Listener.base
    ∧ (Dispatch fanoutState ⟨"test_event", false⟩ []).2.2 = [] ++ [0, 1, 2, 3, 4]
    ∧ ((Dispatch fanoutState ⟨"test_event", false⟩ []).2.2).length
        = ([] : List Nat).length + 5
    ∧ getL NewDispatcher "test_event" = []
    ∧ Dispatch NewDispatcher ⟨"test_event", false⟩ []
        = (NewDispatcher, ⟨"test_event", false⟩, []) := by
  refine ⟨by decide, ?_, by decide, ?_, ?_, by decide, ?_⟩
  · exact ((dispatch_order_and_return fanoutState ⟨"test_event", false⟩ []).2.2.1
      (by decide)).2.2
  · exact ((dispatch_order_and_return fanoutState ⟨"test_event", false⟩ []).2.2.2
      [0, 1, 2, 3, 4] (by decide)).1
  · exact ((dispatch_order_and_return fanoutState ⟨"test_event", false⟩ []).2.2.2
      [0, 1, 2, 3, 4] (by decide)).2.1
  · exact (dispatch_order_and_return NewDispatcher ⟨"test_event", false⟩ []).2.1
      (by decide)

/-- The state after `Once("test_event", stopper); On("test_event", l1);
On("test_event", l2)`: the wrapped listener stops propagation. -/
def mixedStopState : EventDispatcher :=
  setL NewDispatcher "test_event"
    [.onceWrap 5 "test_event" (.stopper 0), .base 1, .base 2]

/-- C8 counterexample: a dispatch in which an earlier listener calls
`StopPropagation` and yet not every registered listener is invoked — the
wrapper's mid-dispatch `Off` (not the flag) makes the loop skip listener
`1` and run listener `2` twice, so the universally stated "every
registered listener is invoked" clause of the claim is false. -/
theorem dispatch_stop_flag_counterexample :
    (Dispatch mixedStopState ⟨"test_event", false⟩ []).2.2 = [0, 2, 2]
    ∧ (Dispatch mixedStopState ⟨"test_event", false⟩ []).2.1.stopped = true
    ∧ (Dispatch mixedStopState ⟨"test_event", false⟩ []).2.2 ≠ [0, 1, 2] := by
  decide

/-- C8 (amended: the every-listener-runs clause holds when no invoked
listener removes entries from the dispatched sequence mid-dispatch):
`dispatch` never reads the propagation-stopped flag — the resulting
dispatcher state and invocation trace are identical whatever the flag's
initial value, so no listener is ever skipped because of the flag; when
every registered listener for the name is persistent all of them run even
when an earlier one calls `StopPropagation`, whose only effect is the flag
left set on the event for listeners and the caller to inspect. -/
theorem dispatch_never_consults_stop_flag (d : EventDispatcher) (n : String) (b : Bool)
    (tr : List Nat) :
    (Dispatch d ⟨n, b⟩ tr).1 = (Dispatch d ⟨n, false⟩ tr).1
    ∧ (Dispatch d ⟨n, b⟩ tr).2.2 = (Dispatch d ⟨n, false⟩ tr).2.2
    ∧ ((∀ l ∈ getL d n, persistent l = true) →
        (Dispatch d ⟨n, b⟩ tr).2.2 = tr ++ traceOf (getL d n))
    ∧ (∀ (i : Nat) (ids : List Nat),
        getL d n = Listener.stopper i :: ids.map Listener.base →
        (Dispatch d ⟨n, b⟩ tr).2.2 = tr ++ i :: ids
        ∧ (Dispatch d ⟨n, b⟩ tr).2.1.stopped = true) := by
  have hind := runGo_ev_indep n (getL d n).length 0 d (getL d n) tr ⟨n, b⟩ ⟨n, false⟩
  have htr : (∀ l ∈ getL d n, persistent l = true) →
      (Dispatch d ⟨n, b⟩ tr).2.2 = tr ++ traceOf (getL d n)
      ∧ (Dispatch d ⟨n, b⟩ tr).2.1 = eFold (getL d n) ⟨n, b⟩ := by
    intro hp
    have hp0 : ∀ l ∈ (getL d n).drop 0, persistent l = true := by
      simpa using hp
    have key := runGo_persistent n (getL d n).length 0 d (getL d n) ⟨n, b⟩ tr hp0
    have hsimp : ((getL d n).drop 0).take (getL d n).length = getL d n := by
      simp
    rw [hsimp] at key
    constructor
    · show (runGo n (getL d n).length 0 ⟨d, getL d n, ⟨n, b⟩, tr⟩).tr
        = tr ++ traceOf (getL d n)
      rw [key]
    · show (runGo n (getL d n).length 0 ⟨d, getL d n, ⟨n, b⟩, tr⟩).ev
        = eFold (getL d n) ⟨n, b⟩
      rw [key]
  refine ⟨hind.1, hind.2.2, fun hp => (htr hp).1, ?_⟩
  · intro i ids h
    have hper : ∀ l ∈ getL d n, persistent l = true := by
      rw [h]
      intro l hl
      rcases List.mem_cons.mp hl with rfl | hl2
      · rfl
      · obtain ⟨j, _, rfl⟩ := List.mem_map.mp hl2
        rfl
    obtain ⟨h1, h2⟩ := htr hper
    constructor
    · rw [h1, h]
      simp [traceOf, effTrace, traceOf_base_map]
    · rw [h2, h]
      simp only [eFold, List.foldl_cons, eEff]
      have hbase := eEff_base_map ids (⟨n, true⟩ : EvState)
      simp only [eFold] at hbase
      rw [hbase]

/-- Dispatcher whose first listener stops propagation and whose second is
a plain counting listener. -/
def stopState : EventDispatcher :=
  setL NewDispatcher "test_event" [.stopper 9, .base 1]

/-- C8 witness: results are flag-independent, and with persistent listeners
both run even though the first stops propagation, the flag ending up set. -/
theorem dispatch_never_consults_stop_flag_witness :
    (Dispatch stopState ⟨"test_event", true⟩ []).2.2
        = (Dispatch stopState ⟨"test_event", false⟩ []).2.2
    ∧ getL stopState "test_event" = Listener.stopper 9 :: ([1] : List Nat).map Listener.base
    ∧ (Dispatch stopState ⟨"test_event", true⟩ []).2.2 = [] ++ 9 :: [1]
    ∧ (Dispatch stopState ⟨"test_event", true⟩ []).2.1.stopped = true := by
  refine ⟨?_, by decide, ?_, ?_⟩
  · exact (dispatch_never_consults_stop_flag stopState "test_event" true []).2.1
  · exact ((dispatch_never_consults_stop_flag stopState "test_event" true []).2.2.2
      9 [1] (by decide)).1
  · exact ((dispatch_never_consults_stop_flag stopState "test_event" true []).2.2.2
      9 [1] (by decide)).2

/-- C5: `HasListeners n` is true exactly when `n` is a key of the mapping
holding a non-empty sequence (an absent key and a present key with an
empty slice both report false); after `On` under a single name it is true,
and after `Off` of the only registrant it is false. -/
theorem hasListeners_spec :
    (∀ (d : EventDispatcher) (n : String),
        HasListeners d n = true ↔ ∃ xs, d.listeners n = some xs ∧ xs ≠ [])
    ∧ (∀ (d : EventDispatcher) (n : String) (l : Listener), getNames n = [n] →
        HasListeners (On d n l) n = true)
    ∧ (∀ (d : EventDispatcher) (n : String) (x l : Listener),
        d.listeners n = some [x] → x.lid = l.lid →
        HasListeners (Off d n l) n = false) := by
  refine ⟨?_, ?_, ?_⟩
  · intro d n
    cases h : d.listeners n with
    | none => simp [HasListeners, h]
    | some xs =>
      simp only [HasListeners, h]
      constructor
      · intro hx
        exact ⟨xs, rfl, by simpa using hx⟩
      · rintro ⟨ys, hy, hne⟩
        cases hy
        simpa using hne
  · intro d n l h
    rw [On, h, List.foldl_cons, List.foldl_nil]
    simp [HasListeners, onOne, listeners_setL_same]
  · intro d n x l h hp
    rw [Off_only_registrant l h hp]
    simp [HasListeners, listeners_setL_same]

/-- Dispatcher with one listener registered under one name. -/
def soloState : EventDispatcher := setL NewDispatcher "test_event" [.base 0]

/-- C5 witness: the characterization applied after a concrete `On` and a
concrete `Off` of the only registrant. -/
theorem hasListeners_spec_witness :
    getNames "test_event" = ["test_event"]
    ∧ HasListeners (On NewDispatcher "test_event" (.base 0)) "test_event" = true
    ∧ soloState.listeners "test_event" = some [.base 0]
    ∧ HasListeners (Off soloState "test_event" (.base 0)) "test_event" = false := by
  refine ⟨by decide, ?_, by decide, ?_⟩
  · exact hasListeners_spec.2.1 NewDispatcher "test_event" (.base 0) (by decide)
  · exact hasListeners_spec.2.2 soloState "test_event" (.base 0) (.base 0)
      (by decide) rfl

/-- C6: `OffAll n` erases the key `n` (so `HasListeners n` is false and a
subsequent dispatch of an event named `n` invokes nothing and changes
nothing), and is a no-op when `n` is not present. -/
theorem offAll_spec (d : EventDispatcher) (n : String) (b : Bool) (tr : List Nat) :
    (OffAll d n).listeners n = none
    ∧ HasListeners (OffAll d n) n = false
    ∧ (d.listeners n = none → OffAll d n = d)
    ∧ Dispatch (OffAll d n) ⟨n, b⟩ tr = (OffAll d n, ⟨n, b⟩, tr) := by
  have ha : (OffAll d n).listeners n = none := by
    cases hx : d.listeners n with
    | none => simp [OffAll, hx]
    | some xs => simp [OffAll, hx, delL]
  refine ⟨ha, ?_, ?_, ?_⟩
  · simp [HasListeners, ha]
  · intro h
    simp [OffAll, h]
  · have hg : getL (OffAll d n) n = [] := by simp [getL, ha]
    exact dispatch_empty (OffAll d n) ⟨n, b⟩ tr hg

/-- C6 witness: a fresh dispatcher has no entry for the name, so `OffAll`
is a no-op there, and after registering several listeners `OffAll` erases
them and the next dispatch runs nothing. -/
theorem offAll_spec_witness :
    (NewDispatcher.listeners "test_event" = none)
    ∧ OffAll NewDispatcher "test_event" = NewDispatcher
    ∧ HasListeners (OffAll fanoutState "test_event") "test_event" = false
    ∧ Dispatch (OffAll fanoutState "test_event") ⟨"test_event", false⟩ []
        = (OffAll fanoutState "test_event", ⟨"test_event", false⟩, []) := by
  refine ⟨by decide, ?_, ?_, ?_⟩
  · exact (offAll_spec NewDispatcher "test_event" false []).2.2.1 (by decide)
  · exact (offAll_spec fanoutState "test_event" false []).2.1
  · exact (offAll_spec fanoutState "test_event" false []).2.2.2

/-- C1: for a single event name `n` (a name is one whitespace-free token,
so `getNames n = [n]`), `Once` on a fresh dispatcher registers the
`executeRemove` wrapper under `n`; the first dispatch of an event named
`n` runs the original listener (its side effect is recorded exactly once)
and the wrapper removes itself from `n`'s sequence, so `HasListeners n`
flips from true to false and any further dispatch of an event named `n`
invokes nothing and records nothing. -/
theorem once_self_removal (n : String) (b w : Nat) (h : getNames n = [n]) :
    HasListeners (Once NewDispatcher n (.base b) w) n = true
    ∧ HasListeners (Dispatch (Once NewDispatcher n (.base b) w) ⟨n, false⟩ []).1 n = false
    ∧ (Dispatch (Once NewDispatcher n (.base b) w) ⟨n, false⟩ []).2.2 = [b]
    ∧ (∀ (sb : Bool) (tr : List Nat),
        Dispatch (Dispatch (Once NewDispatcher n (.base b) w) ⟨n, false⟩ []).1 ⟨n, sb⟩ tr
          = ((Dispatch (Once NewDispatcher n (.base b) w) ⟨n, false⟩ []).1,
             ⟨n, sb⟩, tr)) := by
  have hwrap : Once NewDispatcher n (Listener.base b) w
      = setL NewDispatcher n [Listener.onceWrap w n (.base b)] := by
    rw [Once, h]
    simp [List.enum, List.enumFrom, onOne, getL, NewDispatcher]
  have hOffD : OffDuring n (setL NewDispatcher n [Listener.onceWrap w n (.base b)])
        [Listener.onceWrap w n (.base b)] n (Listener.onceWrap w n (.base b))
      = (setL (setL NewDispatcher n [Listener.onceWrap w n (.base b)]) n [],
         [Listener.onceWrap w n (.base b)]) :=
    OffDuring_only_registrant _ (listeners_setL_same _ _ _) rfl
  have hinvoke : invokeGo n (Listener.onceWrap w n (.base b))
        ⟨setL NewDispatcher n [Listener.onceWrap w n (.base b)],
         [Listener.onceWrap w n (.base b)], ⟨n, false⟩, []⟩
      = ⟨setL (setL NewDispatcher n [Listener.onceWrap w n (.base b)]) n [],
         [Listener.onceWrap w n (.base b)], ⟨n, false⟩, [b]⟩ := by
    simp only [invokeGo]
    simp [hOffD]
  have hdisp : Dispatch (setL NewDispatcher n [Listener.onceWrap w n (.base b)])
        ⟨n, false⟩ []
      = (setL (setL NewDispatcher n [Listener.onceWrap w n (.base b)]) n [],
         ⟨n, false⟩, [b]) := by
    have hg : getL (setL NewDispatcher n [Listener.onceWrap w n (.base b)]) n
        = [Listener.onceWrap w n (.base b)] := getL_setL_same _ _ _
    simp only [Dispatch]
    rw [hg]
    rw [show ([Listener.onceWrap w n (.base b)] : List Listener).length = 0 + 1
      from rfl]
    rw [runGo_step_some n 0 0
      ⟨setL NewDispatcher n [Listener.onceWrap w n (.base b)],
       [Listener.onceWrap w n (.base b)], ⟨n, false⟩, []⟩
      (Listener.onceWrap w n (.base b)) rfl]
    rw [hinvoke]
    rfl
  refine ⟨?_, ?_, ?_, ?_⟩
  · rw [hwrap]
    simp [HasListeners, listeners_setL_same]
  · rw [hwrap, hdisp]
    simp [HasListeners, listeners_setL_same]
  · rw [hwrap, hdisp]
  · intro sb tr
    rw [hwrap, hdisp]
    exact dispatch_empty _ ⟨n, sb⟩ tr (getL_setL_same _ _ _)

/-- C1 witness: the Once protocol run concretely on the test's event name. -/
theorem once_self_removal_witness :
    getNames "test_event" = ["test_event"]
    ∧ HasListeners (Once NewDispatcher "test_event" (.base 0) 1) "test_event" = true
    ∧ HasListeners
        (Dispatch (Once NewDispatcher "test_event" (.base 0) 1)
          ⟨"test_event", false⟩ []).1 "test_event" = false
    ∧ (Dispatch (Once NewDispatcher "test_event" (.base 0) 1)
        ⟨"test_event", false⟩ []).2.2 = [0] := by
  refine ⟨by decide, ?_, ?_, ?_⟩
  · exact (once_self_removal "test_event" 0 1 (by decide)).1
  · exact (once_self_removal "test_event" 0 1 (by decide)).2.1
  · exact (once_self_removal "test_event" 0 1 (by decide)).2.2.1

/-- C4 counterexample: a tab is whitespace but not the space character, so
`On "a\tb" l` does not register under `"a"` and `"b"`; it registers a
single listener under the literal key `"a\tb"`. -/
theorem on_tab_not_split :
    getNames "a\tb" = ["a\tb"]
    ∧ HasListeners (On NewDispatcher "a\tb" (.base 0)) "a" = false
    ∧ HasListeners (On NewDispatcher "a\tb" (.base 0)) "b" = false
    ∧ HasListeners (On NewDispatcher "a\tb" (.base 0)) "a\tb" = true := by
  decide

/-- C4 (amended: `On` splits the name list on the space character U+0020
only, not on general whitespace): empty tokens are dropped, the listener
is appended to the end of each token's sequence once per occurrence of the
token, a name list with no tokens is a silent no-op, and for a single-token
name the listener is appended at the end of exactly that sequence;
registration is total (no error path exists). -/
theorem on_space_split_append (d : EventDispatcher) (names : String) (l : Listener)
    (m : String) :
    ((On d names l).listeners m =
      if countTok m (getNames names) ≠ 0
      then some (getL d m ++ List.replicate (countTok m (getNames names)) l)
      else d.listeners m)
    ∧ (getNames names = [] → On d names l = d)
    ∧ (getNames names = [names] →
        (On d names l).listeners names = some (getL d names ++ [l])) := by
  refine ⟨?_, ?_, ?_⟩
  · rw [On]
    exact onFold_count l (getNames names) d m
  · intro h
    rw [On, h, List.foldl_nil]
  · intro h
    rw [On, h, List.foldl_cons, List.foldl_nil]
    simp [onOne, listeners_setL_same]

/-- C4 witness: the amended splitting behavior applied to a two-name list,
an empty list and a single name. -/
theorem on_space_split_append_witness :
    getNames "foo bar" = ["foo", "bar"]
    ∧ (On NewDispatcher "foo bar" (.base 0)).listeners "bar"
        = (if countTok "bar" (getNames "foo bar") ≠ 0
           then some (getL NewDispatcher "bar"
             ++ List.replicate (countTok "bar" (getNames "foo bar")) (.base 0))
           else NewDispatcher.listeners "bar")
    ∧ getNames " " = []
    ∧ On NewDispatcher " " (.base 0) = NewDispatcher
    ∧ getNames "test_event" = ["test_event"]
    ∧ (On NewDispatcher "test_event" (.base 0)).listeners "test_event"
        = some (getL NewDispatcher "test_event" ++ [.base 0]) := by
  refine ⟨by decide, ?_, by decide, ?_, by decide, ?_⟩
  · exact (on_space_split_append NewDispatcher "foo bar" (.base 0) "bar").1
  · exact (on_space_split_append NewDispatcher " " (.base 0) " ").2.1 (by decide)
  · exact (on_space_split_append NewDispatcher "test_event" (.base 0) "test_event").2.2
      (by decide)

theorem GetDispatcher_hit {r : Registry} {k : Option String} {i : Nat}
    (h : r.table (keyFor k) = some i) : GetDispatcher r k = (r, i) := by
  simp [GetDispatcher, h]

theorem GetDispatcher_miss {r : Registry} {k : Option String}
    (h : r.table (keyFor k) = none) :
    GetDispatcher r k =
      (⟨fun m => if m = keyFor k then some r.nextId else r.table m,
        fun j => if j = r.nextId then NewDispatcher else r.heap j,
        r.nextId + 1⟩, r.nextId) := by
  simp [GetDispatcher, h]

/-- C7: on a well-formed registry (as every state reachable from the empty
one is), a `nil` key means the default key; looking a key up twice yields
the identical stored instance and leaves the registry unchanged; the first
access for a key allocates and stores a fresh empty dispatcher; and
instances stored under different keys are distinct, so at most one instance
ever exists per key. -/
theorem registry_singleton (r : Registry) (hwf : RegWF r) (k k2 : Option String) :
    (GetDispatcher (GetDispatcher r k).1 k).2 = (GetDispatcher r k).2
    ∧ (GetDispatcher (GetDispatcher r k).1 k).1 = (GetDispatcher r k).1
    ∧ GetDispatcher r none = GetDispatcher r (some DefaultDispatcherKey)
    ∧ (r.table (keyFor k) = none →
        (GetDispatcher r k).2 = r.nextId
        ∧ (GetDispatcher r k).1.table (keyFor k) = some r.nextId
        ∧ (GetDispatcher r k).1.heap ((GetDispatcher r k).2) = NewDispatcher)
    ∧ (keyFor k2 ≠ keyFor k →
        (GetDispatcher (GetDispatcher r k).1 k2).2 ≠ (GetDispatcher r k).2)
    ∧ RegWF (GetDispatcher r k).1 := by
  cases hk : r.table (keyFor k) with
  | some i =>
    rw [GetDispatcher_hit hk]
    refine ⟨?_, ?_, rfl, ?_, ?_, hwf⟩
    · rw [GetDispatcher_hit hk]
    · rw [GetDispatcher_hit hk]
    · intro h'
      exact Option.noConfusion h'
    · intro hne
      cases hk2 : r.table (keyFor k2) with
      | some j =>
        rw [GetDispatcher_hit hk2]
        exact hwf.2 _ _ _ _ hk2 hk hne
      | none =>
        rw [GetDispatcher_miss hk2]
        have hb := hwf.1 _ _ hk
        intro he
        omega
  | none =>
    rw [GetDispatcher_miss hk]
    have htab1 : (if keyFor k = keyFor k then some r.nextId else r.table (keyFor k))
        = some r.nextId := if_pos rfl
    refine ⟨?_, ?_, rfl, ?_, ?_, ?_⟩
    · rw [GetDispatcher_hit htab1]
    · rw [GetDispatcher_hit htab1]
    · intro _
      refine ⟨rfl, htab1, ?_⟩
      exact if_pos rfl
    · intro hne
      have htab2 : (if keyFor k2 = keyFor k then some r.nextId else r.table (keyFor k2))
          = r.table (keyFor k2) := if_neg hne
      cases hk2 : r.table (keyFor k2) with
      | some j =>
        have hj : (⟨fun m => if m = keyFor k then some r.nextId else r.table m,
            fun j => if j = r.nextId then NewDispatcher else r.heap j,
            r.nextId + 1⟩ : Registry).table (keyFor k2) = some j := by
          rw [show (⟨fun m => if m = keyFor k then some r.nextId else r.table m,
            fun j => if j = r.nextId then NewDispatcher else r.heap j,
            r.nextId + 1⟩ : Registry).table (keyFor k2)
              = (if keyFor k2 = keyFor k then some r.nextId else r.table (keyFor k2))
            from rfl, htab2, hk2]
        rw [GetDispatcher_hit hj]
        show j ≠ r.nextId
        have hb := hwf.1 _ _ hk2
        omega
      | none =>
        have hj : (⟨fun m => if m = keyFor k then some r.nextId else r.table m,
            fun j => if j = r.nextId then NewDispatcher else r.heap j,
            r.nextId + 1⟩ : Registry).table (keyFor k2) = none := by
          rw [show (⟨fun m => if m = keyFor k then some r.nextId else r.table m,
            fun j => if j = r.nextId then NewDispatcher else r.heap j,
            r.nextId + 1⟩ : Registry).table (keyFor k2)
              = (if keyFor k2 = keyFor k then some r.nextId else r.table (keyFor k2))
            from rfl, htab2, hk2]
        rw [GetDispatcher_miss hj]
        show r.nextId + 1 ≠ r.nextId
        omega
    · show RegWF (⟨fun m => if m = keyFor k then some r.nextId else r.table m,
        fun j => if j = r.nextId then NewDispatcher else r.heap j,
        r.nextId + 1⟩ : Registry)
      constructor
      · intro s j hs
        by_cases hsk : s = keyFor k
        · have : (if s = keyFor k then some r.nextId else r.table s) = some j := hs
          rw [if_pos hsk] at this
          cases this
          show r.nextId < r.nextId + 1
          omega
        · have : (if s = keyFor k then some r.nextId else r.table s) = some j := hs
          rw [if_neg hsk] at this
          have := hwf.1 _ _ this
          show j < r.nextId + 1
          omega
      · intro s t js jt hs ht hst
        have hs' : (if s = keyFor k then some r.nextId else r.table s) = some js := hs
        have ht' : (if t = keyFor k then some r.nextId else r.table t) = some jt := ht
        by_cases hsk : s = keyFor k
        · rw [if_pos hsk] at hs'
          cases hs'
          have htk : ¬ t = keyFor k := fun he => hst (hsk.trans he.symm)
          rw [if_neg htk] at ht'
          have := hwf.1 _ _ ht'
          omega
        · rw [if_neg hsk] at hs'
          by_cases htk : t = keyFor k
          · rw [if_pos htk] at ht'
            cases ht'
            have := hwf.1 _ _ hs'
            omega
          · rw [if_neg htk] at ht'
            exact hwf.2 _ _ _ _ hs' ht' hst

/-- C7 witness: starting from the empty registry, two default-key lookups
return the identical instance, and a `"foo"` lookup returns a distinct one. -/
theorem registry_singleton_witness :
    RegWF initRegistry
    ∧ (GetDispatcher (GetDispatcher initRegistry none).1 none).2
        = (GetDispatcher initRegistry none).2
    ∧ (GetDispatcher (GetDispatcher initRegistry none).1 (some "foo")).2
        ≠ (GetDispatcher initRegistry none).2 := by
  have hwf0 : RegWF initRegistry :=
    ⟨fun s j hj => Option.noConfusion hj,
     fun s t js jt hs _ _ => Option.noConfusion hs⟩
  refine ⟨hwf0, ?_, ?_⟩
  · exact (registry_singleton initRegistry hwf0 none (some "foo")).1
  · exact (registry_singleton initRegistry hwf0 none (some "foo")).2.2.2.2.1
      (by decide)

theorem applyOp_keeps_stopped (e : ParamsEvent) (op : PEOp)
    (h : e.isPropagationStopped = true) :
    (applyOp e op).isPropagationStopped = true := by
  cases op with
  | setP k v => exact h
  | removeP k =>
    by_cases hk : e.HasParam k
    · simp [applyOp, ParamsEvent.RemoveParam, hk, h]
    · simp [applyOp, ParamsEvent.RemoveParam, hk, h]
  | stopProp => rfl

theorem applyOps_keeps_stopped (ops : List PEOp) : ∀ e : ParamsEvent,
    e.isPropagationStopped = true →
    (applyOps e ops).isPropagationStopped = true := by
  induction ops with
  | nil => intro e h; exact h
  | cons op ops ih =>
    intro e h
    exact ih (applyOp e op) (applyOp_keeps_stopped e op h)

/-- C9: the `ParamsEvent` parameter API round-trips: a set key is got back
as `(v, true)`; an unset key reads as the empty-string placeholder with
`false`; a removed key is no longer present and removing an absent key is
a no-op (the mutators return the event itself for chaining, rendered here
by returning the updated event); propagation starts unstopped at
construction, `StopPropagation` sets the flag, and no later API call ever
clears it. -/
theorem paramsEvent_spec :
    (∀ (e : ParamsEvent) (k : String) (v : GoVal),
        (e.SetParam k v).GetParam k = (v, true))
    ∧ (∀ (e : ParamsEvent) (k : String), e.HasParam k = false →
        e.GetParam k = (GoVal.str "", false))
    ∧ (∀ (e : ParamsEvent) (k : String), (e.RemoveParam k).HasParam k = false)
    ∧ (∀ (e : ParamsEvent) (k : String), e.HasParam k = false → e.RemoveParam k = e)
    ∧ (∀ n : String, (NewParamsEvent n).IsPropagationStopped = false)
    ∧ (∀ e : ParamsEvent, e.StopPropagation.IsPropagationStopped = true)
    ∧ (∀ (e : ParamsEvent) (ops : List PEOp),
        (applyOps e.StopPropagation ops).IsPropagationStopped = true) := by
  refine ⟨?_, ?_, ?_, ?_, ?_, ?_, ?_⟩
  · intro e k v
    simp [ParamsEvent.SetParam, ParamsEvent.GetParam]
  · intro e k h
    cases hp : e.params k with
    | none => simp [ParamsEvent.GetParam, hp]
    | some v => simp [ParamsEvent.HasParam, hp] at h
  · intro e k
    by_cases hk : e.HasParam k
    · have hk' : (e.params k).isSome = true := hk
      simp [ParamsEvent.RemoveParam, ParamsEvent.HasParam, hk']
    · simp only [ParamsEvent.RemoveParam, hk, if_false]
      simpa using hk
  · intro e k h
    simp [ParamsEvent.RemoveParam, h]
  · intro n
    rfl
  · intro e
    rfl
  · intro e ops
    exact applyOps_keeps_stopped ops e.StopPropagation rfl

/-- C9 witness: the parameter API on a fresh event with concrete keys. -/
theorem paramsEvent_spec_witness :
    ((NewParamsEvent "test_name").SetParam "k" (GoVal.str "v")).GetParam "k"
        = (GoVal.str "v", true)
    ∧ (NewParamsEvent "test_name").HasParam "k" = false
    ∧ (NewParamsEvent "test_name").GetParam "k" = (GoVal.str "", false)
    ∧ (NewParamsEvent "test_name").RemoveParam "k" = NewParamsEvent "test_name"
    ∧ (applyOps (NewParamsEvent "test_name").StopPropagation
        [.setP "k" (GoVal.vint 3), .removeP "k"]).IsPropagationStopped = true := by
  refine ⟨?_, ?_, ?_, ?_, ?_⟩
  · exact paramsEvent_spec.1 (NewParamsEvent "test_name") "k" (GoVal.str "v")
  · decide
  · exact paramsEvent_spec.2.1 (NewParamsEvent "test_name") "k" (by decide)
  · exact paramsEvent_spec.2.2.2.1 (NewParamsEvent "test_name") "k" (by decide)
  · exact paramsEvent_spec.2.2.2.2.2.2 (NewParamsEvent "test_name")
      [.setP "k" (GoVal.vint 3), .removeP "k"]

/-- C10: every mutation under a name leaves all other names' sequences
untouched (`On` with a multi-name list touches only its split tokens), and
`Off` of a single matching entry deletes exactly that entry, preserving the
relative order of the rest.  `HasListeners` is a pure read of the state —
in this embedding it returns only a `Bool`, so it cannot modify the
mapping. -/
theorem frame_of_operations :
    (∀ (d : EventDispatcher) (names : String) (l : Listener) (m : String),
        m ∉ getNames names → (On d names l).listeners m = d.listeners m)
    ∧ (∀ (d : EventDispatcher) (n : String) (l : Listener) (m : String), m ≠ n →
        (Off d n l).listeners m = d.listeners m)
    ∧ (∀ (d : EventDispatcher) (n m : String), m ≠ n →
        (OffAll d n).listeners m = d.listeners m)
    ∧ (∀ (d : EventDispatcher) (n : String) (x l : Listener) (ys zs : List Listener),
        d.listeners n = some (ys ++ x :: zs) → x.lid = l.lid →
        (∀ y ∈ ys, y.lid ≠ l.lid) → (∀ z ∈ zs, z.lid ≠ l.lid) →
        (Off d n l).listeners n = some (ys ++ zs)) := by
  refine ⟨?_, ?_, ?_, ?_⟩
  · intro d names l m hm
    rw [On]
    exact onFold_other l (getNames names) d m hm
  · intro d n l m hm
    rw [Off]
    split
    · exact listeners_setL_ne _ _ hm
    · rfl
  · intro d n m hm
    rw [OffAll]
    split
    · simp [delL, hm]
    · rfl
  · intro d n x l ys zs h hx hy hz
    rw [Off_unique_match l ys zs h hx hy hz, listeners_setL_same]

/-- Dispatcher with three distinct listeners registered under one name. -/
def orderState : EventDispatcher :=
  setL NewDispatcher "test_event" [.base 1, .base 2, .base 3]

/-- C10 witness: the frame properties applied at concrete states — the key
`"other"` is untouched by each operation on `"test_event"`, and removing
the middle one of three listeners keeps the outer two in order. -/
theorem frame_of_operations_witness :
    ("other" ∉ getNames "test_event")
    ∧ (On NewDispatcher "test_event" (.base 0)).listeners "other"
        = NewDispatcher.listeners "other"
    ∧ (Off orderState "test_event" (.base 2)).listeners "other"
        = orderState.listeners "other"
    ∧ (OffAll orderState "test_event").listeners "other"
        = orderState.listeners "other"
    ∧ orderState.listeners "test_event"
        = some ([Listener.base 1] ++ Listener.base 2 :: [Listener.base 3])
    ∧ (Off orderState "test_event" (.base 2)).listeners "test_event"
        = some ([Listener.base 1] ++ [Listener.base 3]) := by
  refine ⟨by decide, ?_, ?_, ?_, by decide, ?_⟩
  · exact frame_of_operations.1 NewDispatcher "test_event" (.base 0) "other" (by decide)
  · exact frame_of_operations.2.1 orderState "test_event" (.base 2) "other" (by decide)
  · exact frame_of_operations.2.2.1 orderState "test_event" "other" (by decide)
  · exact frame_of_operations.2.2.2 orderState "test_event" (.base 2) (.base 2)
      [.base 1] [.base 3] (by decide) rfl (by decide) (by decide)

end EventDispatcherGo
